import Mathlib

/-
Verification of the nanocall basecaller driver (src/unnamed/part_000, with the
older driver src/src/nanocall.cpp) against its specification.

The C++ driver is embedded shallowly:

* std::map / per-read parameter dictionaries become association lists
  (List (key × value)) with last-write-wins update (alUpdate) and first-match
  lookup (alFind?).  C++ std::map has unique keys; alUpdate preserves key
  uniqueness, so the two agree on every lookup.
* float fits and path probabilities become rationals (ℚ): the claims under
  check are control-flow properties of comparisons, not rounding properties.
* Model_Parameter_Trainer_Type::train_one_round (declared elsewhere in the
  repository) is abstracted as a function argument returning
  (new params, fit, done); the embedded driver is parametric in it, exactly as
  the C++ driver is parametric in the trainer's numeric behaviour.
* Pore model contents, events and Viterbi results are likewise abstracted as
  type parameters / oracle functions where only the driver logic is claimed.
-/

namespace Nanocall

/-! ## Association lists (std::map embedding) -/

/-- Lookup in an association list; models std::map::find / count. -/
def alFind? {κ α : Type} [DecidableEq κ] (k : κ) : List (κ × α) → Option α
  | [] => none
  | (k', v) :: t => if k' = k then some v else alFind? k t

/-- Insert-or-assign; models std::map::operator[] followed by assignment, and
assignment through std::map::at when the key is present. -/
def alUpdate {κ α : Type} [DecidableEq κ] (k : κ) (v : α) : List (κ × α) → List (κ × α)
  | [] => [(k, v)]
  | (k', v') :: t => if k' = k then (k, v) :: t else (k', v') :: alUpdate k v t

/-- Lookup with a default; models std::map::at on a key known to be present
(and std::map::operator[] value-initialization when it is not). -/
def alGetD {κ α : Type} [DecidableEq κ] (m : List (κ × α)) (k : κ) (d : α) : α :=
  (alFind? k m).getD d

theorem alFind?_update_self {κ α : Type} [DecidableEq κ] (k : κ) (v : α) (m : List (κ × α)) :
    alFind? k (alUpdate k v m) = some v := by
  induction m with
  | nil => simp [alUpdate, alFind?]
  | cons h t ih =>
    obtain ⟨k', v'⟩ := h
    by_cases hk : k' = k
    · simp [alUpdate, hk, alFind?]
    · simp [alUpdate, hk, alFind?, ih]

theorem alFind?_update_ne {κ α : Type} [DecidableEq κ] {k k' : κ} (v : α) (m : List (κ × α))
    (h : k' ≠ k) : alFind? k (alUpdate k' v m) = alFind? k m := by
  induction m with
  | nil => simp [alUpdate, alFind?, h]
  | cons hd t ih =>
    obtain ⟨k'', v''⟩ := hd
    by_cases hk : k'' = k'
    · subst hk
      simp [alUpdate, alFind?, h]
    · by_cases hk2 : k'' = k
      · simp [alUpdate, hk, alFind?, hk2, Ne.symm h]
      · simp [alUpdate, hk, alFind?, hk2, ih]

theorem alFind?_mem {κ α : Type} [DecidableEq κ] {k : κ} {v : α} {m : List (κ × α)}
    (h : alFind? k m = some v) : (k, v) ∈ m := by
  induction m with
  | nil => simp [alFind?] at h
  | cons hd t ih =>
    obtain ⟨k', v'⟩ := hd
    by_cases hk : k' = k
    · subst hk
      simp [alFind?] at h
      simp [h]
    · simp [alFind?, hk] at h
      exact List.mem_cons_of_mem _ (ih h)

/-! ## The scaling convergence loop of rescale_reads

rescale_reads runs, per read and per candidate model (or candidate model
pair), one round-0 call of train_one_round and then the post-selection
while-loop at part_000 lines 354-403 (strands-together) / 467-516
(per-strand).  The two loops are textually identical; convergeGo embeds them.

The one abstraction: train_one_round depends, inside one loop, only on the
current parameters (the event bundles, model pointers and transitions are loop
invariants), so it is passed as a function from parameters to
(new params, fit, done). -/

/-- Output of one train_one_round call: crt_pm_params, crt_fit, done. -/
structure TrainResult (P : Type) where
  params : P
  fit : ℚ
  done : Bool
deriving DecidableEq, Repr

/-- State when the convergence while-loop exits: the persisted parameters and
fit, the value of the round counter, the number of train_one_round calls made
by the loop, and the special log events emitted (only scaling_regression is
tracked; the unconditional scaling_round / scaling_result logs are omitted). -/
structure LoopResult (P : Type) where
  params : P
  fit : ℚ
  round : Nat
  calls : Nat
  log : List String
deriving DecidableEq, Repr

/-- The while (true) training loop, with the budget maxRounds - round as the
structural recursion fuel.  In the source the loop continues only while
round + 1 < scale_max_rounds, so the budget decreases by exactly one per
iteration and the inner fuel-exhaustion branch is unreachable.
Body, in source order:
1. train_one_round(old params, old fit) yielding crt params, crt fit, done;
2. if done, break (singularity);
3. if crt_fit < old_fit, restore old params and fit, log scaling_regression,
   break;
4. ++round; break if round >= scale_max_rounds, or round > 1 and
   crt_fit < old_fit + scale_min_fit_progress. -/
def convergeGo {P : Type} (train : P → TrainResult P) (minFitProgress : ℚ) :
    Nat → Nat → P → ℚ → LoopResult P
  | budget, round, p, fit =>
    let r := train p
    if r.done then
      ⟨r.params, r.fit, round, 1, []⟩
    else if r.fit < fit then
      ⟨p, fit, round, 1, ["scaling_regression"]⟩
    else if budget ≤ 1 ∨ (1 < round + 1 ∧ r.fit < fit + minFitProgress) then
      ⟨r.params, r.fit, round + 1, 1, []⟩
    else
      match budget with
      | 0 => ⟨r.params, r.fit, round + 1, 1, []⟩
      | b + 1 =>
        let rest := convergeGo train minFitProgress b (round + 1) r.params r.fit
        ⟨rest.params, rest.fit, rest.round, rest.calls + 1, rest.log⟩

/-- The convergence loop as entered by rescale_reads: round starts at 1, and
the source stop test round >= scale_max_rounds is budget <= 1 for
budget = scale_max_rounds - round (Nat subtraction). -/
def convergeLoop {P : Type} (train : P → TrainResult P) (maxRounds : Nat) (minFitProgress : ℚ)
    (round : Nat) (p : P) (fit : ℚ) : LoopResult P :=
  convergeGo train minFitProgress (maxRounds - round) round p fit

theorem convergeGo_calls_pos {P : Type} (train : P → TrainResult P) (mp : ℚ)
    (budget round : Nat) (p : P) (fit : ℚ) :
    1 ≤ (convergeGo train mp budget round p fit).calls := by
  rw [convergeGo.eq_def]
  dsimp only
  split
  · exact le_refl 1
  · split
    · exact le_refl 1
    · split
      · exact le_refl 1
      · cases budget with
        | zero => exact le_refl 1
        | succ b => exact Nat.le_add_left 1 _

theorem convergeGo_calls_le {P : Type} (train : P → TrainResult P) (mp : ℚ) :
    ∀ (budget round : Nat) (p : P) (fit : ℚ),
      (convergeGo train mp budget round p fit).calls ≤ max 1 budget := by
  intro budget
  induction budget with
  | zero =>
    intro round p fit
    rw [convergeGo.eq_def]
    dsimp only
    split
    · simp
    · split
      · simp
      · split
        · simp
        · simp
  | succ b ih =>
    intro round p fit
    rw [convergeGo.eq_def]
    dsimp only
    split
    · simp
    · split
      · simp
      · split
        · simp
        · rename_i hstop
          have hb : 1 ≤ b := by
            by_contra hb
            exact hstop (Or.inl (by omega))
          have := ih (round + 1) (train p).params (train p).fit
          simp only [LoopResult.mk.injEq]
          calc ((convergeGo train mp b (round + 1) (train p).params (train p).fit).calls + 1)
              ≤ max 1 b + 1 := by omega
            _ ≤ max 1 (b + 1) := by omega

/-- C2: if a training round of the Pass A convergence loop produces
crt_fit < old_fit (and did not report a singularity), the loop exits
immediately with exactly that one extra train_one_round call, the persisted
parameters and fit revert to their values from before the regressing round,
and the round is logged as scaling_regression (a log entry, not an error
value: the loop result is an ordinary value, so the event is not fatal).
Quantifying over the entry state (round, p, fit) covers a regression at any
round of the loop, for any read, strand and candidate model. -/
theorem scaling_regression_reverts {P : Type} (train : P → TrainResult P)
    (maxRounds : Nat) (minFitProgress : ℚ) (round : Nat) (p : P) (fit : ℚ)
    (hdone : (train p).done = false) (hreg : (train p).fit < fit) :
    convergeLoop train maxRounds minFitProgress round p fit =
      ⟨p, fit, round, 1, ["scaling_regression"]⟩ := by
  rw [convergeLoop, convergeGo.eq_def]
  simp [hdone, hreg]

/-- Witness for C2 at a concrete input: a trainer whose one round regresses
the fit from 5 to 0. -/
theorem scaling_regression_reverts_witness :
    convergeLoop (fun _ : ℚ => ⟨(37 : ℚ), (0 : ℚ), false⟩) 10 1 3 (2 : ℚ) (5 : ℚ) =
      ⟨(2 : ℚ), (5 : ℚ), 3, 1, ["scaling_regression"]⟩ :=
  scaling_regression_reverts (fun _ : ℚ => ⟨(37 : ℚ), (0 : ℚ), false⟩) 10 1 3 (2 : ℚ) (5 : ℚ)
    rfl (by norm_num)

/-- C3 counterexample: with scale_max_rounds = 1 the loop still makes one
train_one_round call after round 0, so the total number of training rounds
including round 0 is 2 > scale_max_rounds, refuting the claimed bound
"the total number of training rounds including round 0 never exceeds
scale_max_rounds".  The trainer here is concrete: it returns the input
parameters with fit 0 and no singularity. -/
theorem scaling_rounds_cap_cex :
    ¬ (1 + (convergeLoop (fun q : ℚ => ⟨q, (0 : ℚ), false⟩) 1 (0 : ℚ) 1 (0 : ℚ) (0 : ℚ)).calls
        ≤ 1) := by
  rw [convergeLoop, convergeGo.eq_def]
  norm_num

/-- C3 (amended): after round 0, an iteration of the convergence loop that
neither reports a singularity nor regresses stops the loop exactly when the
incremented round count reaches scale_max_rounds, or - with the source's
round > 1 test, which always holds after the increment from round >= 1 - when
the fit improvement falls below scale_min_fit_progress; otherwise another
train_one_round runs.  Consequently the total number of training rounds
including round 0 never exceeds max 2 scale_max_rounds (the claimed bound
scale_max_rounds itself only holds once scale_max_rounds >= 2). -/
theorem scaling_stop_condition {P : Type} (train : P → TrainResult P)
    (maxRounds : Nat) (minFitProgress : ℚ) (round : Nat) (p : P) (fit : ℚ)
    (hround : 1 ≤ round)
    (hdone : (train p).done = false) (hreg : ¬ (train p).fit < fit) :
    ((convergeLoop train maxRounds minFitProgress round p fit).calls = 1 ↔
      (maxRounds ≤ round + 1 ∨ (train p).fit < fit + minFitProgress)) ∧
    1 + (convergeLoop train maxRounds minFitProgress 1 p fit).calls ≤ max 2 maxRounds := by
  constructor
  · rw [convergeLoop, convergeGo.eq_def]
    simp only [hdone, hreg, Bool.false_eq_true, if_false]
    by_cases hstop : maxRounds - round ≤ 1 ∨ (1 < round + 1 ∧ (train p).fit < fit + minFitProgress)
    · rw [if_pos hstop]
      simp only [true_iff]
      rcases hstop with h | h
      · exact Or.inl (by omega)
      · exact Or.inr h.2
    · rw [if_neg hstop]
      have hb : ∃ b, maxRounds - round = b + 2 := by
        rcases hstop' : maxRounds - round with _ | _ | b
        · exact absurd (Or.inl (by omega)) hstop
        · exact absurd (Or.inl (by omega)) hstop
        · exact ⟨b, rfl⟩
      obtain ⟨b, hb⟩ := hb
      rw [hb]
      simp only
      have hpos := convergeGo_calls_pos train minFitProgress (b + 1) (round + 1)
        (train p).params (train p).fit
      constructor
      · intro h
        omega
      · intro h
        rcases h with h | h
        · omega
        · exact absurd (Or.inr ⟨by omega, h⟩) hstop
  · have := convergeGo_calls_le train minFitProgress (maxRounds - 1) 1 p fit
    rw [convergeLoop]
    omega

/-- Witness for C3's amended theorem at a concrete input: a trainer improving
the fit from 0 to 1, with scale_min_fit_progress 5 and scale_max_rounds 10;
the fit improvement 1 is below the threshold 5, so the loop stops after one
post-round-0 call. -/
theorem scaling_stop_condition_witness :
    (((convergeLoop (fun q : ℚ => ⟨q, (1 : ℚ), false⟩) 10 5 1 (0 : ℚ) (0 : ℚ)).calls = 1 ↔
      (10 ≤ 1 + 1 ∨ ((fun q : ℚ => TrainResult.mk q (1 : ℚ) false) (0 : ℚ)).fit
        < (0 : ℚ) + 5)) ∧
    1 + (convergeLoop (fun q : ℚ => ⟨q, (1 : ℚ), false⟩) 10 5 1 (0 : ℚ) (0 : ℚ)).calls
      ≤ max 2 10) :=
  scaling_stop_condition (fun q : ℚ => ⟨q, (1 : ℚ), false⟩) 10 5 1 (0 : ℚ) (0 : ℚ)
    (le_refl 1) rfl (by norm_num)

/-! ## Candidate model shortlists

Only the strand tag of a loaded Pore_Model_Type matters to the shortlist
logic, so the loaded model dictionary is embedded as an association list
name → strand tag.  The same shortlist construction appears verbatim at
part_000 lines 251-266 (rescale_reads, model_list[st]) and lines 583-598
(basecall_reads, model_sublist); model_sublist embeds both. -/

/-- Shortlist of candidate models for strand st: the preferred model alone if
it is a key of the dictionary (models.count(...)), otherwise every model
whose strand tag is st or 2, in dictionary order. -/
def model_sublist (models : List (String × Nat)) (preferred : String) (st : Nat) :
    List String :=
  if (alFind? preferred models).isSome then [preferred]
  else (models.filter (fun p => p.2 == st || p.2 == 2)).map Prod.fst

/-- C4: for every read and strand with enough events, in both passes the
candidate model shortlist is exactly the singleton preferred model when that
name is a key of the loaded dictionary, and otherwise consists exactly of the
loaded models whose strand tag is the strand itself or 2 (the either-strand
tag). -/
theorem model_sublist_spec (models : List (String × Nat)) (preferred : String) (st : Nat) :
    (∀ v, alFind? preferred models = some v → model_sublist models preferred st = [preferred]) ∧
    (alFind? preferred models = none →
      ∀ m, m ∈ model_sublist models preferred st ↔
        ∃ tag, (m, tag) ∈ models ∧ (tag = st ∨ tag = 2)) := by
  constructor
  · intro v hv
    simp [model_sublist, hv]
  · intro hnone m
    simp [model_sublist, hnone, List.mem_map, List.mem_filter]

/-- Witness for C4 at concrete inputs: with models a (strand 0) and b (strand
2), preferred a is a key and yields the singleton shortlist; unknown preferred
x on strand 1 yields exactly the strand-1-or-2 models, here b. -/
theorem model_sublist_spec_witness :
    model_sublist [("a", 0), ("b", 2)] "a" 0 = ["a"] ∧
    ("b" ∈ model_sublist [("a", 0), ("b", 2)] "x" 1 ↔
      ∃ tag, (("b", tag) ∈ [("a", 0), ("b", 2)]) ∧ (tag = 1 ∨ tag = 2)) :=
  ⟨(model_sublist_spec [("a", 0), ("b", 2)] "a" 0).1 0 (by simp [alFind?]),
   (model_sublist_spec [("a", 0), ("b", 2)] "x" 1).2 (by simp [alFind?]) "b"⟩

/-! ## write_fasta (part_000 lines 538-545) -/

/-- Body lines of write_fasta: the loop
for (pos = 0; pos < seq.size(); pos += width) emitting seq.substr(pos, width).
The fuel argument (instantiated with seq.length) bounds the iteration count;
for width >= 1 it never runs out, since each iteration drops at least one
character.  (For width = 0 and a nonempty sequence the C++ loop itself never
terminates, so the claims below assume a positive width.) -/
def fastaLinesGo (width : Nat) : Nat → List Char → List (List Char)
  | _, [] => []
  | 0, _ :: _ => []
  | fuel + 1, c :: cs => (c :: cs).take width :: fastaLinesGo width fuel ((c :: cs).drop width)

/-- write_fasta: the record is the header line '>' + name followed by the
wrapped body lines. -/
def write_fasta (width : Nat) (name : String) (seq : List Char) : List (List Char) :=
  ('>' :: name.data) :: fastaLinesGo width seq.length seq

theorem fastaLinesGo_flatten (width : Nat) (hw : 0 < width) :
    ∀ (fuel : Nat) (s : List Char), s.length ≤ fuel →
      (fastaLinesGo width fuel s).flatten = s := by
  intro fuel
  induction fuel with
  | zero =>
    intro s hs
    cases s with
    | nil => simp [fastaLinesGo]
    | cons c cs => simp at hs
  | succ f ih =>
    intro s hs
    cases s with
    | nil => simp [fastaLinesGo]
    | cons c cs =>
      have hdrop : ((c :: cs).drop width).length ≤ f := by
        rw [List.length_drop]
        simp only [List.length_cons] at hs ⊢
        omega
      simp only [fastaLinesGo, List.flatten_cons, ih _ hdrop, List.take_append_drop]

theorem fastaLinesGo_width (width : Nat) :
    ∀ (fuel : Nat) (s : List Char) (l : List Char),
      l ∈ fastaLinesGo width fuel s → l.length ≤ width := by
  intro fuel
  induction fuel with
  | zero =>
    intro s l hl
    cases s with
    | nil => simp [fastaLinesGo] at hl
    | cons c cs => simp [fastaLinesGo] at hl
  | succ f ih =>
    intro s l hl
    cases s with
    | nil => simp [fastaLinesGo] at hl
    | cons c cs =>
      simp only [fastaLinesGo, List.mem_cons] at hl
      rcases hl with hl | hl
      · subst hl
        exact List.length_take_le width (c :: cs)
      · exact ih _ l hl

/-- C6: for a positive line width, every emitted sequence record is a header
line '>' followed by the record name, and then body lines of at most width
characters each whose concatenation is exactly the base sequence (the name
passed by basecall_reads is read_id:base_file_name:strand, part_000 lines
653-655). -/
theorem write_fasta_spec (width : Nat) (name : String) (seq : List Char) (hw : 0 < width) :
    (write_fasta width name seq).head? = some ('>' :: name.data) ∧
    ((write_fasta width name seq).tail).flatten = seq ∧
    (∀ l ∈ (write_fasta width name seq).tail, l.length ≤ width) := by
  refine ⟨rfl, ?_, ?_⟩
  · simpa [write_fasta] using fastaLinesGo_flatten width hw seq.length seq (le_refl _)
  · intro l hl
    simp only [write_fasta, List.tail_cons] at hl
    exact fastaLinesGo_width width seq.length seq l hl

/-- Witness for C6 at a concrete input: width 3, record name r1:f.fast5:0,
sequence ACGTA. -/
theorem write_fasta_spec_witness :
    (write_fasta 3 "r1:f.fast5:0" "ACGTA".data).head? =
        some ('>' :: "r1:f.fast5:0".data) ∧
    ((write_fasta 3 "r1:f.fast5:0" "ACGTA".data).tail).flatten = "ACGTA".data ∧
    (∀ l ∈ (write_fasta 3 "r1:f.fast5:0" "ACGTA".data).tail, l.length ≤ 3) :=
  write_fasta_spec 3 "r1:f.fast5:0" "ACGTA".data (by norm_num)

/-! ## Program-level control flow: init_files, init_reads, real_main

part_000 lines 199-205: after collecting input files, init_files exits with
EXIT_FAILURE and the error log "no fast5 files to process" iff the collected
file list is empty.  init_reads (lines 207-222) then keeps a read summary iff
it has event-detection events and at least one strand spans min_read_len
events.  No later stage of real_main (lines 670-702) calls exit: with a
nonempty file list, real_main returns EXIT_SUCCESS even when every read was
filtered out (rescale_reads and basecall_reads just iterate over the empty
read set). -/

/-- The per-read summary fields that init_reads consults. -/
structure Fast5Summary where
  have_ed_events : Bool
  sb0 : Nat
  sb1 : Nat
  sb2 : Nat
  sb3 : Nat
deriving DecidableEq, Repr

/-- The filter of init_reads: have_ed_events and
(strand_bounds[1] >= strand_bounds[0] + min_read_len or
 strand_bounds[3] >= strand_bounds[2] + min_read_len). -/
def readKeep (minReadLen : Nat) (s : Fast5Summary) : Bool :=
  s.have_ed_events && (decide (s.sb0 + minReadLen ≤ s.sb1) || decide (s.sb2 + minReadLen ≤ s.sb3))

/-- init_reads: retain exactly the summaries passing the filter. -/
def init_reads (minReadLen : Nat) (summaries : List Fast5Summary) : List Fast5Summary :=
  summaries.filter (readKeep minReadLen)

/-- The emptiness check ending init_files: error out iff no fast5 file was
collected.  The file-collection walk itself (directories, fofn files) only
determines the list handed to this check, so it is taken as input. -/
def init_files_checked (files : List String) : Except String (List String) :=
  if files = [] then Except.error "no fast5 files to process" else Except.ok files

/-- real_main reduced to its exit behaviour: the returned exit code and the
error diagnostics emitted.  The only exit after file collection succeeds is
the final return EXIT_SUCCESS; in particular the read list produced by
init_reads is never tested for emptiness. -/
def real_main (minReadLen : Nat) (files : List String) (summaries : List Fast5Summary) :
    Nat × List String :=
  match init_files_checked files with
  | Except.error msg => (1, [msg])
  | Except.ok _ =>
    let reads := init_reads minReadLen summaries
    -- rescale_reads / basecall_reads iterate over reads (possibly zero
    -- iterations) and contain no exit call
    (0, [])

/-- C7 counterexample: one valid fast5 file whose only read has no detected
events.  init_reads leaves no read to process, yet real_main returns exit
code 0 (EXIT_SUCCESS) and emits no "no reads to process" diagnostic,
refuting the claim that this input exits non-zero with that message. -/
theorem no_reads_exit_cex :
    init_reads 1000 [⟨false, 0, 0, 0, 0⟩] = [] ∧
    real_main 1000 ["r.fast5"] [⟨false, 0, 0, 0, 0⟩] = (0, []) ∧
    "no reads to process" ∉ (real_main 1000 ["r.fast5"] [⟨false, 0, 0, 0, 0⟩]).2 := by
  refine ⟨by simp [init_reads, readKeep], ?_, ?_⟩
  · simp [real_main, init_files_checked]
  · simp [real_main, init_files_checked]

/-- C7 (amended): the program exits non-zero with the diagnostic
"no fast5 files to process" exactly when the collected input file list is
empty; when at least one fast5 file was collected, real_main returns
EXIT_SUCCESS (exit code 0) even if the read set is empty after init_reads
filtering, with no diagnostic about missing reads. -/
theorem no_reads_exit_amended (minReadLen : Nat) (files : List String)
    (summaries : List Fast5Summary) :
    (files = [] →
      real_main minReadLen files summaries = (1, ["no fast5 files to process"])) ∧
    (files ≠ [] → real_main minReadLen files summaries = (0, [])) := by
  constructor
  · intro h
    simp [real_main, init_files_checked, h]
  · intro h
    simp [real_main, init_files_checked, h]

/-- Witness for C7's amended theorem at concrete inputs: the empty file list
errors out; a singleton file list returns success even with no usable read. -/
theorem no_reads_exit_amended_witness :
    real_main 1000 ([] : List String) [⟨false, 0, 0, 0, 0⟩] =
        (1, ["no fast5 files to process"]) ∧
    real_main 1000 ["r.fast5"] ([] : List Fast5Summary) = (0, []) :=
  ⟨(no_reads_exit_amended 1000 [] [⟨false, 0, 0, 0, 0⟩]).1 rfl,
   (no_reads_exit_amended 1000 ["r.fast5"] []).2 (by simp)⟩

/-! ## init_models (part_000 lines 52-122) and the rescale_reads assertion

init_models receives the parsed per-strand name lists (strand tag 0, 1 or 2
per the [0|1|2]:file command-line format), rejects a configuration giving
models for exactly one of strands 0 and 1 with none for strand 2, and
otherwise loads the named models into the dictionary keyed by file name - in
strand order 0, 1, 2, so a name repeated under two strands keeps only the
LAST strand tag (models[pm_name] = move(pm) overwrites).  With no names at
all, the built-in models are used; their tables live outside src/, so they
are a parameter here. -/

/-- Load names into the dictionary with strand tag st, in order, overwriting
any existing entry for the same name. -/
def insertModels (st : Nat) (names : List String) (m : List (String × Nat)) :
    List (String × Nat) :=
  names.foldl (fun acc e => alUpdate e st acc) m

/-- The dictionary built from user-given models: strand 0 names first, then
strand 1, then strand 2 (the st = 0..2 loop of init_models). -/
def user_models (l0 l1 l2 : List String) : List (String × Nat) :=
  insertModels 2 l2 (insertModels 1 l1 (insertModels 0 l0 []))

/-- init_models: the consistency check, then either the user-given models or
the built-in table. -/
def init_models (l0 l1 l2 : List String) (builtin : List (String × Nat)) :
    Except String (List (String × Nat)) :=
  if l2.isEmpty && (l0.isEmpty != l1.isEmpty) then
    Except.error "models were specified only for one strand"
  else if !(l0.isEmpty && l1.isEmpty && l2.isEmpty) then
    Except.ok (user_models l0 l1 l2)
  else
    Except.ok builtin

/-- The expression asserted at part_000 line 267: not model_list.empty(),
where model_list is the std::array<list<string>, 2> of per-strand shortlists.
std::array<T, 2>::empty() is size() == 0 with size() the constant 2, so the
assertion does not look at either per-strand list. -/
def rescale_assert {α : Type} (model_list : α × α) : Bool :=
  ! (2 == 0)

theorem alFind?_insertModels (st : Nat) (names : List String) (m : List (String × Nat))
    (k : String) :
    alFind? k (insertModels st names m) = if k ∈ names then some st else alFind? k m := by
  induction names generalizing m with
  | nil => simp [insertModels]
  | cons n t ih =>
    show alFind? k (insertModels st t (alUpdate n st m)) = _
    rw [ih]
    by_cases hkt : k ∈ t
    · simp [hkt]
    · by_cases hkn : n = k
      · subst hkn
        simp [hkt, alFind?_update_self]
      · simp [hkt, hkn, Ne.symm hkn, alFind?_update_ne _ _ hkn]

theorem model_sublist_ne_nil {D : List (String × Nat)} {n : String} {tag st : Nat}
    (hfind : alFind? n D = some tag) (htag : tag = st ∨ tag = 2) (preferred : String) :
    model_sublist D preferred st ≠ [] := by
  rw [model_sublist]
  by_cases hp : (alFind? preferred D).isSome
  · simp [hp]
  · simp only [hp, if_false, Bool.false_eq_true]
    apply List.ne_nil_of_mem (a := n)
    exact List.mem_map.mpr ⟨(n, tag), List.mem_filter.mpr ⟨alFind?_mem hfind, by
      rcases htag with h | h <;> simp [h]⟩, rfl⟩

/-- C9 counterexample: the same file name given as a model for strand 0 and
again for strand 1 passes the init_models consistency check, but the second
load overwrites the first entry (std::map assignment), leaving the dictionary
without any strand-0-or-2 model: the strand-0 shortlist in rescale_reads is
then empty even for a strand with enough events, refuting the claimed
guarantee.  (The parsed arguments are --model 0:m --model 1:m.) -/
theorem rescale_shortlist_nonempty_cex :
    init_models ["m"] ["m"] [] [] = Except.ok [("m", 1)] ∧
    model_sublist [("m", 1)] "" 0 = [] := by
  constructor
  · rfl
  · rfl

/-- C9 (amended): if every strand-0 model name is distinct from every
strand-1 model name, then after a successful init_models run on user-given
models the per-strand shortlist of rescale_reads is non-empty for both
strands (for any preferred-model string); without that distinctness the
dictionary overwrite can leave a strand uncovered.  The inline assertion at
part_000 line 267 tests the two-element std::array itself rather than the
per-strand list, so it holds for every input regardless. -/
theorem rescale_shortlist_nonempty_amended (l0 l1 l2 : List String)
    (builtin : List (String × Nat))
    (hck : (l2.isEmpty && (l0.isEmpty != l1.isEmpty)) = false)
    (hne : (l0.isEmpty && l1.isEmpty && l2.isEmpty) = false)
    (hdisj : ∀ n ∈ l0, n ∉ l1) :
    init_models l0 l1 l2 builtin = Except.ok (user_models l0 l1 l2) ∧
    (∀ preferred st, st = 0 ∨ st = 1 →
      model_sublist (user_models l0 l1 l2) preferred st ≠ []) ∧
    (∀ a : List String × List String, rescale_assert a = true) := by
  refine ⟨by simp [init_models, hck, hne], ?_, fun a => rfl⟩
  intro preferred st hst
  by_cases hl2 : l2 = []
  · have hl0 : l0 ≠ [] := by
      intro h
      rcases hl1 : l1 with _ | _
      · rw [h, hl1, hl2] at hne
        simp at hne
      · rw [h, hl1, hl2] at hck
        simp at hck
    have hl1 : l1 ≠ [] := by
      intro h
      rw [h, hl2] at hck
      simp [List.isEmpty_iff, hl0] at hck
    rcases hst with hst | hst
    · subst hst
      obtain ⟨n0, hn0⟩ := List.exists_mem_of_ne_nil l0 hl0
      have hn0n2 : n0 ∉ l2 := by
        rw [hl2]
        simp
      have hfind : alFind? n0 (user_models l0 l1 l2) = some 0 := by
        rw [user_models, alFind?_insertModels, alFind?_insertModels, alFind?_insertModels]
        simp [hn0n2, hdisj n0 hn0, hn0]
      exact model_sublist_ne_nil hfind (Or.inl rfl) preferred
    · subst hst
      obtain ⟨n1, hn1⟩ := List.exists_mem_of_ne_nil l1 hl1
      have hn1n2 : n1 ∉ l2 := by
        rw [hl2]
        simp
      have hfind : alFind? n1 (user_models l0 l1 l2) = some 1 := by
        rw [user_models, alFind?_insertModels, alFind?_insertModels]
        simp [hn1n2, hn1]
      exact model_sublist_ne_nil hfind (Or.inl rfl) preferred
  · obtain ⟨n2', hn2⟩ := List.exists_mem_of_ne_nil l2 hl2
    have hfind : alFind? n2' (user_models l0 l1 l2) = some 2 := by
      rw [user_models, alFind?_insertModels]
      simp [hn2]
    exact model_sublist_ne_nil hfind (Or.inr rfl) preferred

/-- Witness for C9's amended theorem at concrete inputs: distinct strand-0
and strand-1 model names a and b. -/
theorem rescale_shortlist_nonempty_amended_witness :
    init_models ["a"] ["b"] [] [] = Except.ok (user_models ["a"] ["b"] []) ∧
    (∀ preferred st, st = 0 ∨ st = 1 →
      model_sublist (user_models ["a"] ["b"] []) preferred st ≠ []) ∧
    (∀ a : List String × List String, rescale_assert a = true) :=
  rescale_shortlist_nonempty_amended ["a"] ["b"] [] [] rfl rfl
    (by intro n hn; simp at hn; simp [hn])

/-! ## ParallelFor dispensation and output ordering

The producer closure of basecall_reads (part_000 lines 568-572, identical in
rescale_reads lines 233-237) hands out read indices from the shared counter
crt_idx: on each call, if crt_idx >= reads.size() it reports exhaustion, else
it yields crt_idx and increments it.  The harness calls it from a single
producer thread, so the dispensed items are exactly 0, 1, ..., n-1 in order. -/

/-- All items dispensed by the get_item closure starting from counter value
crt.  The fuel (instantiated with size) bounds the number of calls; it never
runs out because each successful call increments crt towards size. -/
def dispenseGo (size : Nat) : Nat → Nat → List Nat
  | 0, _ => []
  | fuel + 1, crt => if crt < size then crt :: dispenseGo size fuel (crt + 1) else []

/-- The full dispensation sequence, from the initial crt_idx = 0. -/
def dispense (size : Nat) : List Nat :=
  dispenseGo size size 0

theorem dispenseGo_eq_range' (size : Nat) :
    ∀ (fuel crt : Nat), size ≤ crt + fuel →
      dispenseGo size fuel crt = List.range' crt (size - crt) := by
  intro fuel
  induction fuel with
  | zero =>
    intro crt h
    have : size - crt = 0 := by omega
    simp [dispenseGo, this]
  | succ f ih =>
    intro crt h
    by_cases hc : crt < size
    · have hs : size - crt = (size - (crt + 1)) + 1 := by omega
      rw [dispenseGo, if_pos hc, ih (crt + 1) (by omega), hs, List.range'_succ]
    · have : size - crt = 0 := by omega
      simp [dispenseGo, hc, this]

/-- The producer dispenses exactly the read indices 0..n-1 in increasing
order. -/
theorem dispense_eq_range (n : Nat) : dispense n = List.range n := by
  rw [dispense, dispenseGo_eq_range' n n 0 (by omega), Nat.sub_zero, List.range_eq_range']

/-- Modelled from the spec: the ParallelFor harness (pfor.hpp, which is not
under src/; only its call sites are).  Per the spec, each worker's per-chunk
output buffer is handed to the single-threaded output callback in the order
the items were requested, regardless of the order in which workers complete
(the completion argument) and of the worker count, so the resulting stream is
the concatenation of the per-item outputs in dispensation order. -/
def pforOutput {β : Type} (numThreads chunkSize : Nat) (items : List Nat)
    (process : Nat → List β) (completion : List Nat) : List β :=
  (items.map process).flatten

theorem pairwise_const {α : Type} {P : Prop} (hP : P) :
    ∀ l : List α, l.Pairwise (fun _ _ => P)
  | [] => List.Pairwise.nil
  | _ :: t => List.Pairwise.cons (fun _ _ => hP) (pairwise_const hP t)

/-- C8: for any read count, worker count, chunk size and completion schedule,
the records emitted by the harness (each tagged with the index of the read
that produced it) carry non-decreasing read indices: the producer dispenses
indices 0..n-1 in increasing order, and the harness output is independent of
the completion schedule. -/
theorem output_ordering {β : Type} (n numThreads chunkSize : Nat) (recs : Nat → List β)
    (completion completion' : List Nat) :
    dispense n = List.range n ∧
    pforOutput numThreads chunkSize (dispense n)
        (fun i => (recs i).map (fun r => (i, r))) completion =
      pforOutput numThreads chunkSize (dispense n)
        (fun i => (recs i).map (fun r => (i, r))) completion' ∧
    List.Sorted (· ≤ ·)
      ((pforOutput numThreads chunkSize (dispense n)
        (fun i => (recs i).map (fun r => (i, r))) completion).map Prod.fst) := by
  refine ⟨dispense_eq_range n, rfl, ?_⟩
  rw [pforOutput, dispense_eq_range, List.map_flatten, List.map_map]
  rw [List.Sorted, List.pairwise_flatten]
  constructor
  · intro l hl
    rw [List.mem_map] at hl
    obtain ⟨i, _, hi⟩ := hl
    subst hi
    simp only [Function.comp, List.map_map]
    rw [List.pairwise_map]
    exact pairwise_const (le_refl i) (recs i)
  · rw [List.pairwise_map]
    refine List.Pairwise.imp ?_ (List.sorted_le_range n)
    intro i j hij x hx y hy
    simp only [Function.comp, List.map_map, List.mem_map] at hx hy
    obtain ⟨a, _, ha⟩ := hx
    obtain ⟨b, _, hb⟩ := hy
    subst ha
    subst hb
    exact hij

/-! ## basecall_reads per-strand model evaluation (part_000 lines 610-643)

The mutable state visible to this loop is the loaded event sequence
read_summary.events[st] and the shared model dictionary; both are embedded in
StrandCtx and threaded explicitly through the loop, so that any write the
C++ body performed on them would appear as a changed context.  The body only
writes locals: Pore_Model_Type pm(models.at(m_name)) is a copy that scale
mutates, and corrected_events is a copy of events[st] that
apply_drift_correction mutates.  The numeric kernels (Pore_Model::scale,
Event_Sequence::apply_drift_correction, Viterbi::fill) live outside the file
under verification and are oracle parameters. -/

/-- The state the per-strand loop could observe or mutate: the loaded events
of this strand and the shared model dictionary (models abstracted by a
content type M). -/
structure StrandCtx (E M : Type) where
  events : E
  models : List (String × M)
deriving Repr

/-- One iteration of the for (m_name : model_sublist) loop: copy the model,
scale the copy by this model's stored parameters, drift-correct a fresh copy
of the events, run Viterbi, and append (path_probability, m_name, base_seq)
to the results. -/
def evalStep {E M P : Type} (scale : M → P → M) (drift : P → E → E)
    (viterbi : M → E → ℚ × String) (paramsOf : String → P) (dflt : M)
    (acc : StrandCtx E M × List (ℚ × String × String)) (m : String) :
    StrandCtx E M × List (ℚ × String × String) :=
  let pm := alGetD acc.1.models m dflt
  let pmScaled := scale pm (paramsOf m)
  let ce := drift (paramsOf m) acc.1.events
  let r := viterbi pmScaled ce
  (acc.1, acc.2 ++ [(r.1, m, r.2)])

/-- The whole shortlist loop, threading the strand context. -/
def evalModels {E M P : Type} (scale : M → P → M) (drift : P → E → E)
    (viterbi : M → E → ℚ × String) (paramsOf : String → P) (dflt : M)
    (sl : List String) (ctx : StrandCtx E M) :
    StrandCtx E M × List (ℚ × String × String) :=
  sl.foldl (evalStep scale drift viterbi paramsOf dflt) (ctx, [])

/-- The per-model result as a pure function of the ORIGINAL strand context. -/
def evalOne {E M P : Type} (scale : M → P → M) (drift : P → E → E)
    (viterbi : M → E → ℚ × String) (paramsOf : String → P) (dflt : M)
    (ctx : StrandCtx E M) (m : String) : ℚ × String × String :=
  let r := viterbi (scale (alGetD ctx.models m dflt) (paramsOf m))
    (drift (paramsOf m) ctx.events)
  (r.1, m, r.2)

theorem evalModels_fold {E M P : Type} (scale : M → P → M) (drift : P → E → E)
    (viterbi : M → E → ℚ × String) (paramsOf : String → P) (dflt : M)
    (ctx : StrandCtx E M) :
    ∀ (sl : List String) (res : List (ℚ × String × String)),
      sl.foldl (evalStep scale drift viterbi paramsOf dflt) (ctx, res) =
        (ctx, res ++ sl.map (evalOne scale drift viterbi paramsOf dflt ctx)) := by
  intro sl
  induction sl with
  | nil => simp
  | cons m t ih =>
    intro res
    rw [List.foldl_cons]
    show List.foldl _ (ctx, res ++ [evalOne scale drift viterbi paramsOf dflt ctx m]) t = _
    rw [ih]
    simp

/-- C10: processing one strand of a read in basecall_reads leaves the loaded
event sequence and the shared model dictionary exactly as they were (drift
correction and scaling are applied to fresh copies), and every shortlist
model's Viterbi result is a function of the same, original events and
dictionary. -/
theorem basecall_frame {E M P : Type} (scale : M → P → M) (drift : P → E → E)
    (viterbi : M → E → ℚ × String) (paramsOf : String → P) (dflt : M)
    (sl : List String) (ctx : StrandCtx E M) :
    (evalModels scale drift viterbi paramsOf dflt sl ctx).1 = ctx ∧
    (evalModels scale drift viterbi paramsOf dflt sl ctx).2 =
      sl.map (evalOne scale drift viterbi paramsOf dflt ctx) := by
  rw [evalModels, evalModels_fold]
  simp

/-! ## Winner selection in Pass B (part_000 lines 644-655)

The results deque holds tuples (path_log_probability, model_name, base_seq);
std::sort orders them by std::tuple's lexicographic operator<, and
results.back() is taken as the winner.  resLe is that lexicographic order
(non-strict); float path probabilities are embedded as ℚ and strings compare
lexicographically as in C++. -/

/-- Lexicographic order of result tuples, matching std::tuple operator<. -/
def resLe (a b : ℚ × String × String) : Prop :=
  a.1 < b.1 ∨ (a.1 = b.1 ∧ (a.2.1 < b.2.1 ∨ (a.2.1 = b.2.1 ∧ a.2.2 ≤ b.2.2)))

instance : DecidableRel resLe := fun a b => by
  unfold resLe
  infer_instance

instance : IsTrans (ℚ × String × String) resLe where
  trans := by
    intro a b c hab hbc
    rcases hab with h1 | ⟨e1, h1⟩ <;> rcases hbc with h2 | ⟨e2, h2⟩
    · exact Or.inl (lt_trans h1 h2)
    · exact Or.inl (by rw [← e2]; exact h1)
    · exact Or.inl (by rw [e1]; exact h2)
    · refine Or.inr ⟨e1.trans e2, ?_⟩
      rcases h1 with g1 | ⟨f1, g1⟩ <;> rcases h2 with g2 | ⟨f2, g2⟩
      · exact Or.inl (lt_trans g1 g2)
      · exact Or.inl (by rw [← f2]; exact g1)
      · exact Or.inl (by rw [f1]; exact g2)
      · exact Or.inr ⟨f1.trans f2, le_trans g1 g2⟩

instance : IsTotal (ℚ × String × String) resLe where
  total := by
    intro a b
    rcases lt_trichotomy a.1 b.1 with h | h | h
    · exact Or.inl (Or.inl h)
    · rcases lt_trichotomy a.2.1 b.2.1 with g | g | g
      · exact Or.inl (Or.inr ⟨h, Or.inl g⟩)
      · rcases le_total a.2.2 b.2.2 with f | f
        · exact Or.inl (Or.inr ⟨h, Or.inr ⟨g, f⟩⟩)
        · exact Or.inr (Or.inr ⟨h.symm, Or.inr ⟨g.symm, f⟩⟩)
      · exact Or.inr (Or.inr ⟨h.symm, Or.inl g⟩)
    · exact Or.inr (Or.inl h)

theorem resLe_refl (a : ℚ × String × String) : resLe a a :=
  Or.inr ⟨rfl, Or.inr ⟨rfl, le_refl _⟩⟩

theorem pairwise_rel_getLast {α : Type} {r : α → α → Prop} (hrefl : ∀ a, r a a) :
    ∀ (l : List α) (h : l ≠ []), l.Pairwise r → ∀ x ∈ l, r x (l.getLast h) := by
  intro l
  induction l with
  | nil => intro h; exact absurd rfl h
  | cons a t ih =>
    intro h hp x hx
    cases t with
    | nil =>
      have hxa : x = a := by simpa using hx
      subst hxa
      exact hrefl x
    | cons b t' =>
      rw [List.getLast_cons (List.cons_ne_nil b t')]
      rcases List.mem_cons.mp hx with rfl | hx'
      · exact (List.pairwise_cons.mp hp).1 _
          (List.getLast_mem (List.cons_ne_nil b t'))
      · exact ih (List.cons_ne_nil b t') (List.pairwise_cons.mp hp).2 x hx'

/-- std::sort of the results deque followed by results.back(): the last
element of the ascending sort (none when the shortlist was empty; the C++
back() would then be undefined behaviour). -/
def basecall_winner (results : List (ℚ × String × String)) :
    Option (ℚ × String × String) :=
  (List.insertionSort resLe results).getLast?

/-- read_summary.preferred_model[st] = best_m_name (part_000 line 652). -/
def preferred_update (results : List (ℚ × String × String)) (pref : String) : String :=
  match basecall_winner results with
  | some w => w.2.1
  | none => pref

/-- The base sequence handed to write_fasta (part_000 line 655). -/
def emitted_seq (results : List (ℚ × String × String)) : Option String :=
  (basecall_winner results).map (fun w => w.2.2)

/-- C5: for every read and strand with enough events and a non-empty model
shortlist, among the per-model (path_log_probability, model_name, base_seq)
results of the Viterbi runs there is a winner w that the ascending sort
places last; it is maximal in the tuple order, its base sequence is the one
emitted, and preferred_model is updated to its model name. -/
theorem best_model_emitted {E M P : Type} (scale : M → P → M) (drift : P → E → E)
    (viterbi : M → E → ℚ × String) (paramsOf : String → P) (dflt : M)
    (sl : List String) (ctx : StrandCtx E M) (pref : String) (hsl : sl ≠ []) :
    ∃ w, w ∈ (evalModels scale drift viterbi paramsOf dflt sl ctx).2 ∧
      (∀ r ∈ (evalModels scale drift viterbi paramsOf dflt sl ctx).2, resLe r w) ∧
      basecall_winner (evalModels scale drift viterbi paramsOf dflt sl ctx).2 = some w ∧
      preferred_update (evalModels scale drift viterbi paramsOf dflt sl ctx).2 pref = w.2.1 ∧
      emitted_seq (evalModels scale drift viterbi paramsOf dflt sl ctx).2 = some w.2.2 := by
  have hres : (evalModels scale drift viterbi paramsOf dflt sl ctx).2 ≠ [] := by
    rw [evalModels, evalModels_fold]
    simpa using hsl
  set results := (evalModels scale drift viterbi paramsOf dflt sl ctx).2 with hresults
  have hperm : List.Perm (List.insertionSort resLe results) results :=
    List.perm_insertionSort resLe results
  have hLne : List.insertionSort resLe results ≠ [] := by
    intro hnil
    exact hres (List.Perm.eq_nil (hnil ▸ hperm.symm))
  refine ⟨(List.insertionSort resLe results).getLast hLne, ?_, ?_, ?_, ?_, ?_⟩
  · exact hperm.mem_iff.mp (List.getLast_mem hLne)
  · intro r hr
    exact pairwise_rel_getLast resLe_refl (List.insertionSort resLe results) hLne
      (List.sorted_insertionSort resLe results) r (hperm.mem_iff.mpr hr)
  · rw [basecall_winner]
    exact List.getLast?_eq_getLast _ hLne
  · rw [preferred_update, basecall_winner, List.getLast?_eq_getLast _ hLne]
  · rw [emitted_seq, basecall_winner, List.getLast?_eq_getLast _ hLne]
    rfl

/-- Witness for C5 at concrete inputs: two shortlist models a and b with
equal path probability 2 and sequence AC; the sort breaks the tie on the
model name, so some winner exists with the stated properties. -/
theorem best_model_emitted_witness :
    ∃ w, w ∈ (evalModels (fun _ _ => ()) (fun _ ε => ε) (fun _ _ => ((2 : ℚ), "AC"))
        (fun _ => ()) () ["a", "b"] (⟨(), []⟩ : StrandCtx Unit Unit)).2 ∧
      (∀ r ∈ (evalModels (fun _ _ => ()) (fun _ ε => ε) (fun _ _ => ((2 : ℚ), "AC"))
        (fun _ => ()) () ["a", "b"] (⟨(), []⟩ : StrandCtx Unit Unit)).2, resLe r w) ∧
      basecall_winner (evalModels (fun _ _ => ()) (fun _ ε => ε)
        (fun _ _ => ((2 : ℚ), "AC")) (fun _ => ()) () ["a", "b"]
        (⟨(), []⟩ : StrandCtx Unit Unit)).2 = some w ∧
      preferred_update (evalModels (fun _ _ => ()) (fun _ ε => ε)
        (fun _ _ => ((2 : ℚ), "AC")) (fun _ => ()) () ["a", "b"]
        (⟨(), []⟩ : StrandCtx Unit Unit)).2 "old" = w.2.1 ∧
      emitted_seq (evalModels (fun _ _ => ()) (fun _ ε => ε)
        (fun _ _ => ((2 : ℚ), "AC")) (fun _ => ()) () ["a", "b"]
        (⟨(), []⟩ : StrandCtx Unit Unit)).2 = some w.2.2 :=
  best_model_emitted (fun _ _ => ()) (fun _ ε => ε) (fun _ _ => ((2 : ℚ), "AC"))
    (fun _ => ()) () ["a", "b"] (⟨(), []⟩ : StrandCtx Unit Unit) "old" (by simp)

/-! ## The scale-strands-together branch of rescale_reads
(part_000 lines 284-416)

When scale_strands_together is set and both strands have at least
min_read_len events, rescale_reads trains over the Cartesian product of the
two per-strand shortlists, under combined keys m0 + '+' + m1 in
read_summary.params[2].  The round-0 pass updates params[2] at each combined
key and records each pair's fit in model_fit; then - under the literal
condition (true or opts::scale_select_model_single_round) - the argmax-fit
pair is selected, both shortlists are restricted to it, and the convergence
loop runs on the restricted product, finally writing the converged params to
params[2][m0+m1], params[0][m0] and params[1][m1].

train_one_round here receives four event bundles and model pointers
determined by the pair (m0, m1); within one read it therefore depends only on
the pair and on the current parameters, and is abstracted as such. -/

/-- The combined-strand key m0 + '+' + m1. -/
def pairKey (m0 m1 : String) : String := m0 ++ "+" ++ m1

/-- The per-read scaling state touched by this branch: params[0..2] and the
preferred model of each strand. -/
structure ReadScaling (P : Type) where
  params0 : List (String × P)
  params1 : List (String × P)
  params2 : List (String × P)
  preferred0 : String
  preferred1 : String
deriving Repr

/-- Modelled from the spec: alg::max_of (alg.hpp is not under src/), which
per the spec picks the element of the fit map with maximum fit; as
std::max_element it keeps the first element and replaces it only on a
strictly greater value. -/
def maxOf {α : Type} (f : α → ℚ) : List α → Option α
  | [] => none
  | x :: xs => some (xs.foldl (fun best y => if f best < f y then y else best) x)

/-- One round-0 iteration over a pair q = (m0, m1): read the old params from
params[2] at the combined key, run train_one_round, store the new params back
at that key and the fit in model_fit under the pair. -/
def round0Step {P : Type} (train : String → String → P → TrainResult P) (d : P)
    (acc : List (String × P) × List ((String × String) × ℚ)) (q : String × String) :
    List (String × P) × List ((String × String) × ℚ) :=
  let r := train q.1 q.2 (alGetD acc.1 (pairKey q.1 q.2) d)
  (alUpdate (pairKey q.1 q.2) r.params acc.1, alUpdate q r.fit acc.2)

/-- The full round-0 pass over the Cartesian product (the nested
for m_name_0 / for m_name_1 loops, in that iteration order). -/
def round0Together {P : Type} (train : String → String → P → TrainResult P)
    (L0 L1 : List String) (d : P) (params2 : List (String × P)) :
    List (String × P) × List ((String × String) × ℚ) :=
  (L0.product L1).foldl (round0Step train d) (params2, [])

/-- What round 0 produces for a pair, as a function of the initial params[2]:
train_one_round applied to the stored (old) parameters at the combined key. -/
def round0Out {P : Type} (train : String → String → P → TrainResult P) (d : P)
    (params2 : List (String × P)) (q : String × String) : TrainResult P :=
  train q.1 q.2 (alGetD params2 (pairKey q.1 q.2) d)

/-- One post-selection iteration over a pair: run the convergence loop from
the round-0 params (params[2].at(key)) and round-0 fit (model_fit[pair]),
then write the converged params to params[2][key], params[0][m0] and
params[1][m1]. -/
def trainStep {P : Type} (train : String → String → P → TrainResult P) (mr : Nat) (mp : ℚ)
    (d : P) (mfit : List ((String × String) × ℚ)) (rs : ReadScaling P) (q : String × String) :
    ReadScaling P :=
  let res := convergeLoop (train q.1 q.2) mr mp 1
    (alGetD rs.params2 (pairKey q.1 q.2) d) (alGetD mfit q 0)
  { rs with params2 := alUpdate (pairKey q.1 q.2) res.params rs.params2,
            params0 := alUpdate q.1 res.params rs.params0,
            params1 := alUpdate q.2 res.params rs.params1 }

/-- The scale-strands-together branch: round 0 over the product, then - the
source reads if (true or opts::scale_select_model_single_round), so always -
selection of the argmax pair and restriction of both shortlists to it, then
the convergence loop over the restricted product.  The none branch of the
match is unreachable for non-empty shortlists (in C++, alg::max_of on an
empty map would be undefined). -/
def afterSelect {P : Type} (train : String → String → P → TrainResult P) (mr : Nat) (mp : ℚ)
    (d : P) (mfit : List ((String × String) × ℚ)) (params2' : List (String × P))
    (rs : ReadScaling P) : Option ((String × String) × ℚ) → ReadScaling P
  | some best =>
    (List.product [best.1.1] [best.1.2]).foldl (trainStep train mr mp d mfit)
      { rs with params2 := params2', preferred0 := best.1.1, preferred1 := best.1.2 }
  | none => { rs with params2 := params2' }

def rescaleTogether {P : Type} (selectFlag : Bool)
    (train : String → String → P → TrainResult P) (mr : Nat) (mp : ℚ)
    (L0 L1 : List String) (d : P) (rs : ReadScaling P) : ReadScaling P :=
  if true || selectFlag then
    afterSelect train mr mp d (round0Together train L0 L1 d rs.params2).2
      (round0Together train L0 L1 d rs.params2).1 rs
      (maxOf (fun q => q.2) (round0Together train L0 L1 d rs.params2).2)
  else
    (L0.product L1).foldl
      (trainStep train mr mp d (round0Together train L0 L1 d rs.params2).2)
      { rs with params2 := (round0Together train L0 L1 d rs.params2).1 }

theorem alUpdate_append {κ α : Type} [DecidableEq κ] {k : κ} (v : α) {m : List (κ × α)}
    (h : alFind? k m = none) : alUpdate k v m = m ++ [(k, v)] := by
  induction m with
  | nil => simp [alUpdate]
  | cons hd t ih =>
    obtain ⟨k', v'⟩ := hd
    by_cases hk : k' = k
    · simp [alFind?, hk] at h
    · simp [alFind?, hk] at h
      simp [alUpdate, hk, ih h]

theorem alFind?_append_left_none {κ α : Type} [DecidableEq κ] {k : κ} {m₁ : List (κ × α)}
    (m₂ : List (κ × α)) (h : alFind? k m₁ = none) :
    alFind? k (m₁ ++ m₂) = alFind? k m₂ := by
  induction m₁ with
  | nil => simp
  | cons hd t ih =>
    obtain ⟨k', v'⟩ := hd
    by_cases hk : k' = k
    · simp [alFind?, hk] at h
    · simp [alFind?, hk] at h ⊢
      exact ih h

theorem alFind?_map_self {κ α : Type} [DecidableEq κ] (g : κ → α) :
    ∀ (ps : List κ), ps.Nodup → ∀ q ∈ ps,
      alFind? q (ps.map (fun p => (p, g p))) = some (g q) := by
  intro ps
  induction ps with
  | nil => intro _ q hq; simp at hq
  | cons p t ih =>
    intro hnd q hq
    rcases List.mem_cons.mp hq with rfl | hq'
    · simp [alFind?]
    · have hpq : p ≠ q := by
        intro h
        subst h
        exact (List.nodup_cons.mp hnd).1 hq'
      simp only [List.map_cons, alFind?, hpq, if_false]
      exact ih (List.nodup_cons.mp hnd).2 q hq'

theorem round0_find_ne {P : Type} (train : String → String → P → TrainResult P) (d : P) :
    ∀ (ps : List (String × String)) (params2 : List (String × P))
      (mfit0 : List ((String × String) × ℚ)) (k : String),
      (∀ q ∈ ps, pairKey q.1 q.2 ≠ k) →
      alFind? k (ps.foldl (round0Step train d) (params2, mfit0)).1 = alFind? k params2 := by
  intro ps
  induction ps with
  | nil => intro params2 mfit0 k _; rfl
  | cons p t ih =>
    intro params2 mfit0 k hk
    rw [List.foldl_cons]
    show alFind? k (t.foldl (round0Step train d)
      (alUpdate (pairKey p.1 p.2) _ params2, _)).1 = _
    rw [ih _ _ k (fun q hq => hk q (List.mem_cons_of_mem p hq))]
    exact alFind?_update_ne _ _ (hk p (List.mem_cons_self p t))

theorem round0_find_self {P : Type} (train : String → String → P → TrainResult P) (d : P) :
    ∀ (ps : List (String × String)) (params2 : List (String × P))
      (mfit0 : List ((String × String) × ℚ)),
      (ps.map (fun q => pairKey q.1 q.2)).Nodup → ∀ q ∈ ps,
      alFind? (pairKey q.1 q.2) (ps.foldl (round0Step train d) (params2, mfit0)).1 =
        some (round0Out train d params2 q).params := by
  intro ps
  induction ps with
  | nil => intro _ _ _ q hq; simp at hq
  | cons p t ih =>
    intro params2 mfit0 hnd q hq
    rw [List.map_cons] at hnd
    obtain ⟨hnotmem, hndt⟩ := List.nodup_cons.mp hnd
    rw [List.foldl_cons]
    rcases List.mem_cons.mp hq with rfl | hq'
    · show alFind? (pairKey q.1 q.2) (t.foldl (round0Step train d)
        (alUpdate (pairKey q.1 q.2) (round0Out train d params2 q).params params2, _)).1 = _
      rw [round0_find_ne train d t _ _ _ ?hne]
      · exact alFind?_update_self _ _ _
      case hne =>
        intro q' hq' hkey
        exact hnotmem (hkey ▸ List.mem_map_of_mem (fun q => pairKey q.1 q.2) hq')
    · have hkeyne : pairKey p.1 p.2 ≠ pairKey q.1 q.2 := by
        intro h
        exact hnotmem (h ▸ List.mem_map_of_mem (fun q => pairKey q.1 q.2) hq')
      show alFind? (pairKey q.1 q.2) (t.foldl (round0Step train d)
        (alUpdate (pairKey p.1 p.2) _ params2, _)).1 = _
      rw [ih _ _ hndt q hq']
      simp only [round0Out, alGetD, alFind?_update_ne _ _ hkeyne]

theorem round0_mfit {P : Type} (train : String → String → P → TrainResult P) (d : P) :
    ∀ (ps : List (String × String)) (params2 : List (String × P))
      (mfit0 : List ((String × String) × ℚ)),
      (ps.map (fun q => pairKey q.1 q.2)).Nodup →
      (∀ q ∈ ps, alFind? q mfit0 = none) →
      (ps.foldl (round0Step train d) (params2, mfit0)).2 =
        mfit0 ++ ps.map (fun q => (q, (round0Out train d params2 q).fit)) := by
  intro ps
  induction ps with
  | nil => intro params2 mfit0 _ _; simp
  | cons p t ih =>
    intro params2 mfit0 hnd hfresh
    rw [List.map_cons] at hnd
    obtain ⟨hnotmem, hndt⟩ := List.nodup_cons.mp hnd
    rw [List.foldl_cons]
    show (t.foldl (round0Step train d)
      (alUpdate (pairKey p.1 p.2) (round0Out train d params2 p).params params2,
       alUpdate p (round0Out train d params2 p).fit mfit0)).2 = _
    rw [alUpdate_append _ (hfresh p (List.mem_cons_self p t))]
    rw [ih _ _ hndt ?hfresh2]
    · rw [List.map_cons, List.append_assoc]
      congr 1
      rw [List.singleton_append]
      congr 1
      refine List.map_congr_left ?_
      intro q hq
      have hkeyne : pairKey p.1 p.2 ≠ pairKey q.1 q.2 := by
        intro h
        exact hnotmem (h ▸ List.mem_map_of_mem (fun q => pairKey q.1 q.2) hq)
      simp only [round0Out, alGetD, alFind?_update_ne _ _ hkeyne]
    case hfresh2 =>
      intro q hq
      have hpq : p ≠ q := by
        intro h
        subst h
        exact hnotmem (List.mem_map_of_mem (fun q => pairKey q.1 q.2) hq)
      rw [alFind?_append_left_none _ (hfresh q (List.mem_cons_of_mem p hq))]
      simp [alFind?, hpq]

theorem foldl_max_spec {α : Type} (f : α → ℚ) :
    ∀ (ys : List α) (b : α),
      (ys.foldl (fun best y => if f best < f y then y else best) b ∈ b :: ys) ∧
      f b ≤ f (ys.foldl (fun best y => if f best < f y then y else best) b) ∧
      ∀ y ∈ ys, f y ≤ f (ys.foldl (fun best y => if f best < f y then y else best) b) := by
  intro ys
  induction ys with
  | nil =>
    intro b
    exact ⟨List.mem_cons_self b [], le_refl _, by simp⟩
  | cons y t ih =>
    intro b
    rw [List.foldl_cons]
    by_cases hc : f b < f y
    · rw [if_pos hc]
      obtain ⟨hmem, hle, hall⟩ := ih y
      refine ⟨?_, le_trans (le_of_lt hc) hle, ?_⟩
      · rcases List.mem_cons.mp hmem with h | h
        · rw [h]
          exact List.mem_cons_of_mem b (List.mem_cons_self y t)
        · exact List.mem_cons_of_mem b (List.mem_cons_of_mem y h)
      · intro z hz
        rcases List.mem_cons.mp hz with rfl | hz'
        · exact hle
        · exact hall z hz'
    · rw [if_neg hc]
      obtain ⟨hmem, hle, hall⟩ := ih b
      refine ⟨?_, hle, ?_⟩
      · rcases List.mem_cons.mp hmem with h | h
        · rw [h]
          exact List.mem_cons_self b _
        · exact List.mem_cons_of_mem b (List.mem_cons_of_mem y h)
      · intro z hz
        rcases List.mem_cons.mp hz with rfl | hz'
        · exact le_trans (le_of_not_lt hc) hle
        · exact hall z hz'

theorem maxOf_spec {α : Type} (f : α → ℚ) (l : List α) (x : α) (h : maxOf f l = some x) :
    x ∈ l ∧ ∀ y ∈ l, f y ≤ f x := by
  cases l with
  | nil => simp [maxOf] at h
  | cons a t =>
    rw [maxOf, Option.some.injEq] at h
    obtain ⟨hmem, hb, hall⟩ := foldl_max_spec f t a
    rw [h] at hmem hb hall
    refine ⟨hmem, ?_⟩
    intro y hy
    rcases List.mem_cons.mp hy with rfl | hy'
    · exact hb
    · exact hall y hy'

theorem maxOf_exists {α : Type} (f : α → ℚ) (l : List α) (h : l ≠ []) :
    ∃ x, maxOf f l = some x := by
  cases l with
  | nil => exact absurd rfl h
  | cons a t => exact ⟨_, rfl⟩

/-- The parameters persisted for a pair after the convergence loop following
round 0: the loop enters at round 1 with the round-0 parameters and fit. -/
def finalParams {P : Type} (train : String → String → P → TrainResult P) (mr : Nat)
    (mp : ℚ) (d : P) (params2 : List (String × P)) (q : String × String) : P :=
  (convergeLoop (train q.1 q.2) mr mp 1 (round0Out train d params2 q).params
    (round0Out train d params2 q).fit).params

/-- C1: whenever scale_strands_together is set and both strands qualify
(non-empty shortlists, with distinct combined keys as produced by distinct
model names), the branch always selects a pair of maximum round-0 fit over
the Cartesian product - for any value of scale_select_model_single_round,
since the source condition is (true or flag) - and after the remaining
convergence rounds writes the final params to params[2][m0+m1] and copies
them into params[0][m0] and params[1][m1], with preferred_model[0] and
preferred_model[1] set to the selected pair. -/
theorem rescale_together_selects {P : Type} (selectFlag : Bool)
    (train : String → String → P → TrainResult P) (mr : Nat) (mp : ℚ)
    (L0 L1 : List String) (d : P) (rs : ReadScaling P)
    (h0 : L0 ≠ []) (h1 : L1 ≠ [])
    (hkeys : ((L0.product L1).map (fun q => pairKey q.1 q.2)).Nodup) :
    ∃ b0 b1, (b0, b1) ∈ L0.product L1 ∧
      (∀ q ∈ L0.product L1,
        (round0Out train d rs.params2 q).fit ≤
          (round0Out train d rs.params2 (b0, b1)).fit) ∧
      (rescaleTogether selectFlag train mr mp L0 L1 d rs).preferred0 = b0 ∧
      (rescaleTogether selectFlag train mr mp L0 L1 d rs).preferred1 = b1 ∧
      alFind? (pairKey b0 b1) (rescaleTogether selectFlag train mr mp L0 L1 d rs).params2 =
        some (finalParams train mr mp d rs.params2 (b0, b1)) ∧
      alFind? b0 (rescaleTogether selectFlag train mr mp L0 L1 d rs).params0 =
        some (finalParams train mr mp d rs.params2 (b0, b1)) ∧
      alFind? b1 (rescaleTogether selectFlag train mr mp L0 L1 d rs).params1 =
        some (finalParams train mr mp d rs.params2 (b0, b1)) := by
  have hndps : (L0.product L1).Nodup := List.Nodup.of_map _ hkeys
  have hpsne : L0.product L1 ≠ [] := by
    obtain ⟨a, ha⟩ := List.exists_mem_of_ne_nil L0 h0
    obtain ⟨b, hb⟩ := List.exists_mem_of_ne_nil L1 h1
    exact List.ne_nil_of_mem (List.pair_mem_product.mpr ⟨ha, hb⟩)
  have hmfit : (round0Together train L0 L1 d rs.params2).2 =
      (L0.product L1).map
        (fun q => (q, (round0Out train d rs.params2 q).fit)) := by
    rw [round0Together]
    exact round0_mfit train d (L0.product L1) rs.params2 [] hkeys (fun q _ => rfl)
  have hmfitne : (round0Together train L0 L1 d rs.params2).2 ≠ [] := by
    rw [hmfit]
    simpa using hpsne
  obtain ⟨best, hbest⟩ := maxOf_exists (fun q => q.2) _ hmfitne
  obtain ⟨hbestmem, hbestmax⟩ := maxOf_spec (fun q => q.2) _ best hbest
  rw [hmfit] at hbestmem
  obtain ⟨qstar, hqmem, hqeq⟩ := List.mem_map.mp hbestmem
  have hb1 : best.1 = qstar := by rw [← hqeq]
  have hb2 : best.2 = (round0Out train d rs.params2 qstar).fit := by rw [← hqeq]
  have hq12 : (qstar.1, qstar.2) = qstar := Prod.mk.eta
  have hfindp2 : alFind? (pairKey qstar.1 qstar.2)
      (round0Together train L0 L1 d rs.params2).1 =
      some (round0Out train d rs.params2 qstar).params := by
    rw [round0Together]
    exact round0_find_self train d (L0.product L1) rs.params2 [] hkeys qstar hqmem
  have hfindfit : alFind? qstar (round0Together train L0 L1 d rs.params2).2 =
      some (round0Out train d rs.params2 qstar).fit := by
    rw [hmfit]
    exact alFind?_map_self _ (L0.product L1) hndps qstar hqmem
  have hresc : rescaleTogether selectFlag train mr mp L0 L1 d rs =
      trainStep train mr mp d (round0Together train L0 L1 d rs.params2).2
        { rs with params2 := (round0Together train L0 L1 d rs.params2).1,
                  preferred0 := qstar.1, preferred1 := qstar.2 } (qstar.1, qstar.2) := by
    rw [rescaleTogether, if_pos (Bool.true_or selectFlag), hbest]
    rw [afterSelect, hb1]
    rfl
  have hstep : trainStep train mr mp d (round0Together train L0 L1 d rs.params2).2
      { rs with params2 := (round0Together train L0 L1 d rs.params2).1,
                preferred0 := qstar.1, preferred1 := qstar.2 } (qstar.1, qstar.2) =
      { rs with
          params2 := alUpdate (pairKey qstar.1 qstar.2)
            (finalParams train mr mp d rs.params2 qstar)
            (round0Together train L0 L1 d rs.params2).1,
          params0 := alUpdate qstar.1 (finalParams train mr mp d rs.params2 qstar) rs.params0,
          params1 := alUpdate qstar.2 (finalParams train mr mp d rs.params2 qstar) rs.params1,
          preferred0 := qstar.1, preferred1 := qstar.2 } := by
    rw [trainStep]
    simp only [alGetD, hq12, hfindp2, hfindfit, Option.getD_some]
    rfl
  refine ⟨qstar.1, qstar.2, by rw [hq12]; exact hqmem, ?_, ?_, ?_, ?_, ?_, ?_⟩
  · intro q hq
    have := hbestmax (q, (round0Out train d rs.params2 q).fit)
      (by rw [hmfit]; exact List.mem_map_of_mem _ hq)
    rw [hb2] at this
    rw [hq12]
    exact this
  · rw [hresc, hstep]
  · rw [hresc, hstep]
  · rw [hresc, hstep, hq12]
    exact alFind?_update_self _ _ _
  · rw [hresc, hstep, hq12]
    exact alFind?_update_self _ _ _
  · rw [hresc, hstep, hq12]
    exact alFind?_update_self _ _ _

/-- Witness for C1 at concrete inputs: singleton shortlists a and b, a
constant trainer, scale_select_model_single_round NOT given
(selectFlag = false); the unique pair (a, b) is selected. -/
theorem rescale_together_selects_witness :
    ∃ b0 b1, (b0, b1) ∈ List.product ["a"] ["b"] ∧
      (∀ q ∈ List.product ["a"] ["b"],
        (round0Out (fun _ _ (p : ℚ) => ⟨p, (3 : ℚ), false⟩) 0 [] q).fit ≤
          (round0Out (fun _ _ (p : ℚ) => ⟨p, (3 : ℚ), false⟩) 0 [] (b0, b1)).fit) ∧
      (rescaleTogether false (fun _ _ (p : ℚ) => ⟨p, (3 : ℚ), false⟩) 10 1 ["a"] ["b"] 0
        ⟨[], [], [], "", ""⟩).preferred0 = b0 ∧
      (rescaleTogether false (fun _ _ (p : ℚ) => ⟨p, (3 : ℚ), false⟩) 10 1 ["a"] ["b"] 0
        ⟨[], [], [], "", ""⟩).preferred1 = b1 ∧
      alFind? (pairKey b0 b1)
        (rescaleTogether false (fun _ _ (p : ℚ) => ⟨p, (3 : ℚ), false⟩) 10 1 ["a"] ["b"] 0
          ⟨[], [], [], "", ""⟩).params2 =
        some (finalParams (fun _ _ (p : ℚ) => ⟨p, (3 : ℚ), false⟩) 10 1 0 [] (b0, b1)) ∧
      alFind? b0
        (rescaleTogether false (fun _ _ (p : ℚ) => ⟨p, (3 : ℚ), false⟩) 10 1 ["a"] ["b"] 0
          ⟨[], [], [], "", ""⟩).params0 =
        some (finalParams (fun _ _ (p : ℚ) => ⟨p, (3 : ℚ), false⟩) 10 1 0 [] (b0, b1)) ∧
      alFind? b1
        (rescaleTogether false (fun _ _ (p : ℚ) => ⟨p, (3 : ℚ), false⟩) 10 1 ["a"] ["b"] 0
          ⟨[], [], [], "", ""⟩).params1 =
        some (finalParams (fun _ _ (p : ℚ) => ⟨p, (3 : ℚ), false⟩) 10 1 0 [] (b0, b1)) :=
  rescale_together_selects false (fun _ _ (p : ℚ) => ⟨p, (3 : ℚ), false⟩) 10 1 ["a"] ["b"] 0
    ⟨[], [], [], "", ""⟩ (by simp) (by simp) (by decide)

end Nanocall
